import Mathlib

/-!
Verification of the core of folly's io_uring event backend
(folly/experimental/io/IoUringBackend.cpp).

The development shallowly embeds the backend's data model and operations:
kernel calls (io_uring_submit, io_uring_register_files_update, ...) are
modelled by explicit state passing with an oracle for the values the kernel
returns, and every C++ function of the source file that the properties touch
becomes a Lean function over that state.
-/

set_option maxHeartbeats 1000000

/-- Linux errno EBUSY; `io_uring_submit` reports ring backpressure as -EBUSY. -/
def EBUSY : ℤ := 16

/-! ### Registered-descriptor table (IoUringBackend::FdRegistry)

One slot of the table kept in `records_`: the registered descriptor value
(`fd_`, -1 when empty) and the reference count (`count_`).  The slot index
`idx_` is the record's position in the list below. -/

structure FdRegistrationRecord where
  fd : ℤ
  count : ℤ
deriving DecidableEq, Repr

instance : Inhabited FdRegistrationRecord := ⟨⟨-1, 0⟩⟩

/-- The registry state: `records` models the `records_` vector (fixed size,
set at construction), `free` models the intrusive free list `free_` of slot
indices, head first (`push_front`/`pop_front` act on the head). -/
structure FdRegistry where
  records : List FdRegistrationRecord
  free_ : List ℕ
deriving DecidableEq, Repr

namespace FdRegistry

/-- State produced by the FdRegistry constructor: `files_(n, -1)`,
`records_(n)` with default-constructed records (descriptor empty, count zero)
and an empty free list. -/
def construct (n : ℕ) : FdRegistry :=
  { records := List.replicate n ⟨-1, 0⟩, free_ := [] }

/-- FdRegistry::init for a non-empty table when `io_uring_register_files`
succeeds: gives every record its index and pushes it on the free list front,
for i = 0 .. n-1, so the resulting free list is `[n-1, ..., 1, 0]`.
On kernel failure (or a zero-capacity table) the free list stays empty. -/
def init (n : ℕ) (registerOk : Bool) : FdRegistry :=
  if 0 < n ∧ registerOk then
    { records := List.replicate n ⟨-1, 0⟩, free_ := (List.range n).reverse }
  else construct n

/-- FdRegistry::alloc.  `updateOk` is the oracle for whether
`io_uring_register_files_update(&ioRing_, ret.idx_, &fd, 1)` returned 1.
Empty free list: return null (`none`).  Kernel update failure: return null
without popping the free list or touching the record.  Success: the front
record gets `fd_ = fd`, `count_ = 1` and is popped from the free list. -/
def alloc (r : FdRegistry) (fd : ℤ) (updateOk : Bool) :
    Option ℕ × FdRegistry :=
  match r.free_ with
  | [] => (none, r)
  | idx :: rest =>
    if updateOk then
      (some idx, { records := r.records.set idx ⟨fd, 1⟩, free_ := rest })
    else
      (none, r)

/-- FdRegistry::free.  `rec` is the record argument (`none` = null pointer),
given as a slot index; `updateOk` is the oracle for whether the kernel
files-update call returned 1.  The result carries the boolean return value,
the new state, and whether the kernel update call was issued at all.
Mirrors `if (record && (--record->count_ == 0)) { fd_ = -1; update;
free_.push_front(*record); return ret == 1; } return false;` — the decrement
happens whenever the record is non-null, and the slot goes back on the free
list even when the kernel update fails. -/
def free (r : FdRegistry) (rec : Option ℕ) (updateOk : Bool) :
    Bool × FdRegistry × Bool :=
  match rec with
  | none => (false, r, false)
  | some idx =>
    let c := (r.records.getD idx default).count - 1
    if c = 0 then
      (updateOk,
       { records := r.records.set idx ⟨-1, c⟩, free_ := idx :: r.free_ },
       true)
    else
      (false,
       { records := r.records.set idx ⟨(r.records.getD idx default).fd, c⟩,
         free_ := r.free_ },
       false)

/-- Number of records currently in use: those whose reference count is
non-zero. -/
def inUse (r : FdRegistry) : ℕ :=
  (r.records.filter fun rcd => decide (rcd.count ≠ 0)).length

/-- The registry invariant: the free list only holds valid indices, holds no
duplicates, holds exactly the indices whose reference count is zero, and its
length plus the in-use count equals the table's fixed capacity. -/
def Inv (r : FdRegistry) : Prop :=
  (∀ i ∈ r.free_, i < r.records.length) ∧
  r.free_.Nodup ∧
  (∀ i, i < r.records.length →
    (i ∈ r.free_ ↔ (r.records.getD i default).count = 0)) ∧
  r.free_.length + r.inUse = r.records.length

instance (r : FdRegistry) : Decidable (Inv r) := by
  unfold Inv; infer_instance

/-- One client-visible registry operation with its kernel-result oracle. -/
inductive RegOp where
  | alloc (fd : ℤ) (updateOk : Bool)
  | free (rec : Option ℕ) (updateOk : Bool)
deriving DecidableEq, Repr

def applyOp (r : FdRegistry) : RegOp → FdRegistry
  | .alloc fd ok => (r.alloc fd ok).2
  | .free rec ok => (r.free rec ok).2.1

def applyOps (r : FdRegistry) (ops : List RegOp) : FdRegistry :=
  ops.foldl applyOp r

/-- Well-formed use of the registry: `free` is only called with the null
pointer or with a record the caller still owns (a live reference, so the
count is at least one and the index is a real slot) — exactly the contract
under which the C++ `free` may be called. -/
def ValidOp (r : FdRegistry) : RegOp → Prop
  | .alloc _ _ => True
  | .free none _ => True
  | .free (some idx) _ =>
      idx < r.records.length ∧ 1 ≤ (r.records.getD idx default).count

instance (r : FdRegistry) (op : RegOp) : Decidable (ValidOp r op) := by
  cases op with
  | alloc fd ok => exact .isTrue trivial
  | free rec ok => cases rec <;> · unfold ValidOp; infer_instance

/-- A well-formed operation sequence, each step valid in the state it runs
in. -/
def ValidOps : FdRegistry → List RegOp → Prop
  | _, [] => True
  | r, op :: ops => ValidOp r op ∧ ValidOps (applyOp r op) ops

instance : ∀ (r : FdRegistry) (ops : List RegOp), Decidable (ValidOps r ops)
  | _, [] => .isTrue trivial
  | r, op :: ops =>
    have := instDecidableValidOps (applyOp r op) ops
    by unfold ValidOps; infer_instance

end FdRegistry

/-! ### Entry pool built by the IoUringBackend constructor

An `IoSqe` pool entry carries the completion dispatch callback (`backendCb_`)
and the intrusive free-list link (`next_`).  Default-constructed entries have
no callback and a null link (the header holding IoSqe's default member
initialisers is outside the given source; modelled from the spec, which says
the link is used only while the entry sits in the free list).  The `backend_`
member always holds the owning backend and is not modelled. -/

inductive BackendCb where
  | processTimerIoCb
  | processPollIoCb
deriving DecidableEq, Repr

structure IoSqe where
  backendCb : Option BackendCb := none
  next : Option ℕ := none
deriving DecidableEq, Repr

instance : Inhabited IoSqe := ⟨{}⟩

/-- The entry pool right after construction: the `entries_` array and the
free-list head pointer `freeHead_`, both with pool entries named by index. -/
structure EntryPool where
  entries : List IoSqe
  freeHead : Option ℕ
deriving DecidableEq, Repr

/-- The constructor loop body for index `i`:
`entries_[i-1].next_ = &entries_[i]; entries_[i-1].backend_ = this;
entries_[i-1].backendCb_ = PollIoBackend::processPollIoCb;`. -/
def wireStep (es : List IoSqe) (i : ℕ) : List IoSqe :=
  es.set (i - 1) { backendCb := some .processPollIoCb, next := some i }

/-- Entry-pool initialisation performed by the IoUringBackend constructor:
`numEntries_ *= 2` (the base class had set `numEntries_ = maxSubmit`;
modelled from the spec: the pool is sized `2 × maxSubmit`), a fresh
`entries_` array, the timer entry at index 0 wired to the timer callback,
the loop `for (i = 2; i < numEntries_; i++)` chaining entries 1 .. n-2 and
wiring them to the poll callback, the last entry wired to the poll callback,
and `freeHead_ = &entries_[1]`. -/
def initEntryPool (maxSubmit : ℕ) : EntryPool :=
  let numEntries := 2 * maxSubmit
  let e0 : List IoSqe := List.replicate numEntries {}
  let e1 := e0.set 0 { backendCb := some .processTimerIoCb }
  let e2 := (List.range' 2 (numEntries - 2)).foldl wireStep e1
  let e3 := e2.set (numEntries - 1)
    { e2.getD (numEntries - 1) default with backendCb := some .processPollIoCb }
  { entries := e3, freeHead := some 1 }

/-- The free list as the chain of `next_` links starting at the free head;
fuel bounds the walk so the function is total even on cyclic links. -/
def chainFrom (entries : List IoSqe) : Option ℕ → ℕ → List ℕ
  | none, _ => []
  | some _, 0 => []
  | some i, fuel + 1 => i :: chainFrom entries (entries.getD i default).next fuel

def EntryPool.freeList (p : EntryPool) : List ℕ :=
  chainFrom p.entries p.freeHead p.entries.length

/-! ### Ring context

The kernel side of the ring is modelled by `RingState`: the submission
entries obtained with `io_uring_get_sqe` and filled by a prep call but not
yet submitted (`sq`), a fault-injection schedule for successive submit
system calls (`errs`: `some e` makes the next submit call return `e` and
leave the prepared entries pending, `none` or an exhausted schedule makes
it honestly report and consume every pending entry), and the completions
currently available on the completion queue (`cq`). -/

/-- A prepared submission-queue entry. -/
inductive SqeOp where
  | pollAdd (fd : ℤ) (flags : ℕ) (persist : Bool)
  | pollRemove (target : ℕ)
deriving DecidableEq, Repr

/-- One completion-queue entry: the user data set at prep time (the pool
entry, as its index) and the raw result `res`. -/
structure Cqe where
  data : ℕ
  res : ℤ
deriving DecidableEq, Repr

structure RingState where
  sq : List SqeOp
  errs : List (Option ℤ)
  cq : List Cqe
deriving DecidableEq, Repr

/-- `io_uring_get_sqe` (the source CHECKs that it is non-null) followed by
the prep call that fills the obtained slot. -/
def prepSqe (op : SqeOp) (s : RingState) : RingState :=
  { s with sq := s.sq ++ [op] }

/-- `io_uring_submit`: consumes one step of the fault schedule; an injected
fault returns its error without touching the pending entries, otherwise the
call reports and consumes every pending prepared entry. -/
def ioUringSubmit (s : RingState) : ℤ × RingState :=
  match s.errs with
  | some e :: rest => (e, { s with errs := rest })
  | none :: rest => ((s.sq.length : ℤ), { s with sq := [], errs := rest })
  | [] => ((s.sq.length : ℤ), { s with sq := [] })

/-- `io_uring_submit_and_wait(&ring, 1)`: same submission behaviour as
`io_uring_submit`; the wait-until-one-completion side only blocks and is not
otherwise observable in this state, so it is not modelled. -/
def ioUringSubmitAndWait (s : RingState) : ℤ × RingState :=
  match s.errs with
  | some e :: rest => (e, { s with errs := rest })
  | none :: rest => ((s.sq.length : ℤ), { s with sq := [], errs := rest })
  | [] => ((s.sq.length : ℤ), { s with sq := [] })

inductive WaitForEventsMode where
  | wait
  | dontWait
deriving DecidableEq, Repr

/-- Observable events of completion processing: the entry's stored callback
invoked with the raw result (`sqe->backendCb_(this, sqe, cqe->res)`), then
the completion marked consumed (`io_uring_cqe_seen`). -/
inductive CqEvent where
  | callback (entry : ℕ) (res : ℤ)
  | seen (entry : ℕ)
deriving DecidableEq, Repr

/-- The drain loop of getActiveEvents: `while (cqe && (i < maxGet_))`
processes the peeked completion, marks it seen and peeks the next one.
Returns the final counter, the completions left on the queue, and the event
trace. -/
def processCqes (maxGet : ℕ) : ℕ → List Cqe → ℕ × List Cqe × List CqEvent
  | i, [] => (i, [], [])
  | i, c :: rest =>
    if i < maxGet then
      let (j, cq, tr) := processCqes maxGet (i + 1) rest
      (j, cq, .callback c.data c.res :: .seen c.data :: tr)
    else (i, c :: rest, [])

/-- IoUringBackend::getActiveEvents.  WAIT first blocks in
`io_uring_wait_cqe`; with no completion available and nothing left to
produce one in this static model the call never returns, rendered as
`none`.  DONT_WAIT peeks and never blocks.  On return: the number of
completions processed, the new ring state and the dispatch trace. -/
def getActiveEvents (mode : WaitForEventsMode) (maxGet : ℕ) (s : RingState) :
    Option (ℕ × RingState × List CqEvent) :=
  match mode with
  | .wait =>
    match s.cq with
    | [] => none
    | _ =>
      let (i, cq, tr) := processCqes maxGet 0 s.cq
      some (i, { s with cq := cq }, tr)
  | .dontWait =>
    let (i, cq, tr) := processCqes maxGet 0 s.cq
    some (i, { s with cq := cq }, tr)


lemma getActiveEvents_dontWait_eq (maxGet : ℕ) (s : RingState) :
    getActiveEvents .dontWait maxGet s =
      some ((processCqes maxGet 0 s.cq).1,
        { s with cq := (processCqes maxGet 0 s.cq).2.1 },
        (processCqes maxGet 0 s.cq).2.2) := rfl

lemma ioUringSubmit_busy_shrinks (s : RingState)
    (h : (ioUringSubmit s).1 = -EBUSY) :
    (ioUringSubmit s).2.errs.length < s.errs.length := by
  rcases hs : s.errs with _ | ⟨e, rest⟩
  · simp [ioUringSubmit, hs, EBUSY] at h
  · rcases e with _ | v
    · simp [ioUringSubmit, hs, EBUSY] at h
    · simp [ioUringSubmit, hs]

lemma ioUringSubmitAndWait_busy_shrinks (s : RingState)
    (h : (ioUringSubmitAndWait s).1 = -EBUSY) :
    (ioUringSubmitAndWait s).2.errs.length < s.errs.length := by
  rcases hs : s.errs with _ | ⟨e, rest⟩
  · simp [ioUringSubmitAndWait, hs, EBUSY] at h
  · rcases e with _ | v
    · simp [ioUringSubmitAndWait, hs, EBUSY] at h
    · simp [ioUringSubmitAndWait, hs]

/-- IoUringBackend::submitBusyCheck:
`while ((num = io_uring_submit(&ioRing_)) == -EBUSY)
 getActiveEvents(WaitForEventsMode::DONT_WAIT);`.
Returns the first non-busy submit result, the ring state after it, and the
number of non-blocking drain rounds the loop performed. -/
def submitBusyCheck (maxGet : ℕ) (s : RingState) : ℤ × RingState × ℕ :=
  let r := ioUringSubmit s
  if h : r.1 = -EBUSY then
    let d := (getActiveEvents .dontWait maxGet r.2).getD (0, r.2, [])
    have hd : d.2.1.errs.length < s.errs.length := by
      simpa [getActiveEvents_dontWait_eq] using ioUringSubmit_busy_shrinks s h
    let q := submitBusyCheck maxGet d.2.1
    (q.1, q.2.1, q.2.2 + 1)
  else (r.1, r.2, 0)
termination_by s.errs.length

/-- IoUringBackend::submitBusyCheckAndWait: the same drain-and-retry loop
around `io_uring_submit_and_wait(&ioRing_, 1)`. -/
def submitBusyCheckAndWait (maxGet : ℕ) (s : RingState) : ℤ × RingState × ℕ :=
  let r := ioUringSubmitAndWait s
  if h : r.1 = -EBUSY then
    let d := (getActiveEvents .dontWait maxGet r.2).getD (0, r.2, [])
    have hd : d.2.1.errs.length < s.errs.length := by
      simpa [getActiveEvents_dontWait_eq] using
        ioUringSubmitAndWait_busy_shrinks s h
    let q := submitBusyCheckAndWait maxGet d.2.1
    (q.1, q.2.1, q.2.2 + 1)
  else (r.1, r.2, 0)
termination_by s.errs.length

/-! ### Batched submission (IoUringBackend::submitList) -/

/-- One pending request on the submit list: the event data reached through
`entry->event_->getEvent()` (descriptor, interest-flag bitmask). -/
structure EventData where
  fd : ℤ
  events : ℕ
deriving DecidableEq, Repr

/-- EV_PERSIST bit of the external event abstraction (modelled from the
spec: the persistence flag propagated into the poll-add prep; numerically
libevent's 0x10). -/
def EV_PERSIST : ℕ := 16

/-- The submitList loop, with `i` the slots filled since the last submit
call and `ret` the running total; `getPollFlags` stands for the interest
flag conversion defined outside the given source file.  Each request is
popped, a submission slot obtained (`CHECK(sqe)`) and filled as a poll-add
for the request's descriptor, flags and persistence.  When the queue runs
out the batch is submitted with the blocking or non-blocking busy-checking
variant per `waitForEvents`; when the batch reaches `maxSubmit` with the
queue non-empty it is submitted with the non-blocking variant and `i`
resets.  A submit call reporting anything other than the slots filled since
the previous submit fails `CHECK_EQ(num, i)` — a defensive abort, rendered
as `none`.  Otherwise the result is the total submitted, the final ring
state, and the counts reported by the successive submit calls. -/
def pollAddOf (getPollFlags : ℕ → ℕ) (ev : EventData) : SqeOp :=
  .pollAdd ev.fd (getPollFlags ev.events)
    (decide ((ev.events &&& EV_PERSIST) ≠ 0))

def submitListAux (getPollFlags : ℕ → ℕ) (maxSubmit maxGet : ℕ)
    (mode : WaitForEventsMode) :
    List EventData → ℕ → ℕ → RingState → Option (ℕ × RingState × List ℤ)
  | [], _, ret, s => some (ret, s, [])
  | ev :: rest, i, ret, s =>
    let s1 := prepSqe (pollAddOf getPollFlags ev) s
    let i1 := i + 1
    if rest.isEmpty then
      let r :=
        match mode with
        | .wait => submitBusyCheckAndWait maxGet s1
        | .dontWait => submitBusyCheck maxGet s1
      if r.1 = (i1 : ℤ) then some (ret + i1, r.2.1, [r.1]) else none
    else
      if i1 = maxSubmit then
        let r := submitBusyCheck maxGet s1
        if r.1 = (i1 : ℤ) then
          (submitListAux getPollFlags maxSubmit maxGet mode rest 0 (ret + i1)
            r.2.1).map (fun w => (w.1, w.2.1, r.1 :: w.2.2))
        else none
      else submitListAux getPollFlags maxSubmit maxGet mode rest i1 ret s1

/-- IoUringBackend::submitList: run the loop from `i = 0`, `ret = 0`. -/
def submitList (getPollFlags : ℕ → ℕ) (maxSubmit maxGet : ℕ)
    (mode : WaitForEventsMode) (ioCbs : List EventData) (s : RingState) :
    Option (ℕ × RingState × List ℤ) :=
  submitListAux getPollFlags maxSubmit maxGet mode ioCbs 0 0 s

/-! ### Cancellation (IoUringBackend::cancelOne) -/

/-- IoUringBackend::cancelOne.  The entry-pool free list is passed as the
list of free entry indices, head first: `allocIoCb` pops the head (an empty
pool returns 0 immediately), `releaseIoCb` pushes the entry back on the
front.  A submission slot is obtained (`CHECK(sqe)`) and prepped as a
poll-remove referencing the target entry, then submitted through the
busy-checking submit.  A negative submit result releases the freshly
allocated cancellation entry back to the pool; the raw result is returned
either way.  Result: (return value, pool free list, ring state). -/
def cancelOne (maxGet : ℕ) (pool : List ℕ) (s : RingState) (target : ℕ) :
    ℤ × List ℕ × RingState :=
  match pool with
  | [] => (0, [], s)
  | rentry :: rest =>
    let s1 := prepSqe (.pollRemove target) s
    let r := submitBusyCheck maxGet s1
    if r.1 < 0 then (r.1, rentry :: rest, r.2.1)
    else (r.1, rest, r.2.1)

/-! ### Teardown (IoUringBackend::cleanup) -/

/-- Backend state as seen by cleanup: the pending submit list and the active
events list (entry indices, front first), the entries the kernel still holds
in flight (oldest first, the order their completions get delivered), the
pool's in-use entry count `numIoCbInUse()`, and the ring descriptor
(`ioRing_.ring_fd`, positive while the ring is open, -1 once closed). -/
structure CleanupState where
  submitList_ : List ℕ
  activeEvents_ : List ℕ
  inFlight : List ℕ
  numInUse : ℕ
  ringFd : ℤ
deriving DecidableEq, Repr

/-- Observable teardown events: an entry released straight back to the pool
without consulting the kernel, an entry released after `io_uring_wait_cqe`
delivered its completion, and `io_uring_queue_exit`. -/
inductive CleanupEvent where
  | release (entry : ℕ)
  | waitRelease (entry : ℕ)
  | queueExit
deriving DecidableEq, Repr

/-- The two draining loops `while (!list.empty()) { pop_front;
releaseIoCb(ioCb); }`: each release hands the entry back to the pool and
decrements the in-use count. -/
def releaseAll : List ℕ → ℕ → ℕ × List CleanupEvent
  | [], n => (n, [])
  | e :: rest, n =>
    let w := releaseAll rest (n - 1)
    (w.1, .release e :: w.2)

/-- The blocking drain `while (numIoCbInUse()) { io_uring_wait_cqe; if (cqe)
{ release; seen; } }`, by recursion on the in-use count; each delivery hands
over the oldest in-flight entry.  With entries in use but nothing in flight
the wait never returns, rendered as `none`. -/
def drainInFlight : ℕ → List ℕ → Option (ℕ × List ℕ × List CleanupEvent)
  | 0, fl => some (0, fl, [])
  | _ + 1, [] => none
  | n + 1, e :: rest =>
    (drainInFlight n rest).map fun w => (w.1, w.2.1, .waitRelease e :: w.2.2)

/-- IoUringBackend::cleanup: a no-op on a closed ring; otherwise release
every pending submit-list entry, then every active-events entry, then
block-wait out the remaining in-flight completions, and finally
`io_uring_queue_exit` with `ring_fd = -1`.  Returns the final state and the
event trace; `none` when the blocking drain can never finish. -/
def cleanup (s : CleanupState) : Option (CleanupState × List CleanupEvent) :=
  if 0 < s.ringFd then
    let w1 := releaseAll s.submitList_ s.numInUse
    let w2 := releaseAll s.activeEvents_ w1.1
    match drainInFlight w2.1 s.inFlight with
    | none => none
    | some (n3, fl, tr3) =>
      some ({ submitList_ := [], activeEvents_ := [], inFlight := fl,
              numInUse := n3, ringFd := -1 },
            w1.2 ++ w2.2 ++ tr3 ++ [.queueExit])
  else some (s, [])

/-! ### Availability probe (IoUringBackend::isAvailable) -/

/-- The process-wide probe state: the cached `sAvailable` value and whether
the `folly::call_once` initialisation already ran. -/
structure ProbeState where
  sAvailable : Bool
  onceDone : Bool
deriving DecidableEq, Repr

/-- Static initialisation: `sAvailable = true`, the once-flag unset. -/
def probeInit : ProbeState := ⟨true, false⟩

/-- IoUringBackend::isAvailable, one call.  `constructOk` is the oracle for
whether the trial construction `IoUringBackend backend(1024, 128)` succeeds
(a failure throws NotAvailable, which the probe catches and records as
unavailable).  Returns the value handed to the caller, the new process-wide
state, and whether this call attempted the trial construction. -/
def isAvailable (constructOk : Bool) (s : ProbeState) :
    Bool × ProbeState × Bool :=
  if s.onceDone then (s.sAvailable, s, false)
  else
    let avail := if constructOk then s.sAvailable else false
    (avail, { sAvailable := avail, onceDone := true }, true)

/-- A sequence of `k` isAvailable calls: the values returned, the final
probe state, and the total number of trial constructions attempted. -/
def isAvailableSeq (constructOk : Bool) :
    ℕ → ProbeState → List Bool × ProbeState × ℕ
  | 0, s => ([], s, 0)
  | k + 1, s =>
    let c := isAvailable constructOk s
    let w := isAvailableSeq constructOk k c.2.1
    (c.1 :: w.1, w.2.1, (if c.2.2 then 1 else 0) + w.2.2)

/-- The trial backend the probe constructs, at the moment its destructor
runs: ring open (some positive descriptor), empty pending and active lists,
and only the timer entry (pool index 0) in flight — `addTimerFd` submitted
the timer poll during construction. -/
def trialBackendState : CleanupState :=
  { submitList_ := [], activeEvents_ := [], inFlight := [0], numInUse := 1,
    ringFd := 3 }


/-! ### Helper lemmas on lists -/

lemma getD_set_self {α : Type} :
    ∀ (L : List α) (i : ℕ) (x d : α), i < L.length →
      (L.set i x).getD i d = x
  | [], i, x, d, h => by simp at h
  | _ :: _, 0, _, _, _ => rfl
  | a :: t, i + 1, x, d, h => getD_set_self t i x d (by simpa using h)

lemma getD_set_ne {α : Type} :
    ∀ (L : List α) (i j : ℕ) (x d : α), i ≠ j →
      (L.set i x).getD j d = L.getD j d
  | [], _, _, _, _, _ => by simp
  | _ :: _, 0, 0, _, _, h => absurd rfl h
  | _ :: _, 0, _ + 1, _, _, _ => rfl
  | _ :: _, _ + 1, 0, _, _, _ => rfl
  | a :: t, i + 1, j + 1, x, d, h =>
      getD_set_ne t i j x d (fun he => h (by rw [he]))

/-- Updating one position of a list changes the length of its filtering
exactly by the difference the predicate sees at that position. -/
lemma length_filter_set {α : Type} (p : α → Bool) :
    ∀ (L : List α) (i : ℕ) (x d : α), i < L.length →
      ((L.set i x).filter p).length + (if p (L.getD i d) then 1 else 0) =
        (L.filter p).length + (if p x then 1 else 0)
  | [], i, x, d, h => by simp at h
  | a :: t, 0, x, d, h => by
      simp only [List.set_cons_zero, List.filter_cons, List.getD_cons_zero]
      by_cases hp : p x = true <;> by_cases hpa : p a = true <;>
        simp [hp, hpa]
  | a :: t, i + 1, x, d, h => by
      have ih := length_filter_set p t i x d (by simpa using h)
      simp only [List.set_cons_succ, List.filter_cons, List.getD_cons_succ]
      by_cases hpa : p a = true <;>
        simp only [hpa, if_true, if_false, Bool.false_eq_true,
          List.length_cons] <;>
        omega
/-- Special case of length_filter_set: the predicate turns false at the
updated position. -/
lemma length_filter_set_ff_tt {α : Type} (p : α → Bool) (L : List α) (i : ℕ)
    (x d : α) (h : i < L.length) (hold : p (L.getD i d) = false)
    (hnew : p x = true) :
    ((L.set i x).filter p).length = (L.filter p).length + 1 := by
  have hs := length_filter_set p L i x d h
  rw [hold, hnew] at hs
  simpa using hs

/-- Special case of length_filter_set: the predicate turns true at the
updated position. -/
lemma length_filter_set_tt_ff {α : Type} (p : α → Bool) (L : List α) (i : ℕ)
    (x d : α) (h : i < L.length) (hold : p (L.getD i d) = true)
    (hnew : p x = false) :
    ((L.set i x).filter p).length + 1 = (L.filter p).length := by
  have hs := length_filter_set p L i x d h
  rw [hold, hnew] at hs
  simpa using hs

/-- Special case of length_filter_set: the predicate keeps holding at the
updated position. -/
lemma length_filter_set_tt_tt {α : Type} (p : α → Bool) (L : List α) (i : ℕ)
    (x d : α) (h : i < L.length) (hold : p (L.getD i d) = true)
    (hnew : p x = true) :
    ((L.set i x).filter p).length = (L.filter p).length := by
  have hs := length_filter_set p L i x d h
  rw [hold, hnew] at hs
  simpa using hs

namespace FdRegistry

/-- Evaluation of alloc on a non-empty free list with a successful kernel
update. -/
lemma alloc_eq_of_free (r : FdRegistry) (fd : ℤ) (idx : ℕ) (rest : List ℕ)
    (hf : r.free_ = idx :: rest) :
    r.alloc fd true =
      (some idx,
       { records := r.records.set idx ⟨fd, 1⟩, free_ := rest }) := by
  simp [alloc, hf]

/-- Evaluation of free on a record holding its last reference. -/
lemma free_eq_last (r : FdRegistry) (idx : ℕ) (ok : Bool)
    (hc : (r.records.getD idx default).count = 1) :
    r.free (some idx) ok =
      (ok,
       { records := r.records.set idx ⟨-1, 0⟩, free_ := idx :: r.free_ },
       true) := by
  have hc2 : (r.records[idx]?.getD default).count = 1 := by
    simpa [List.getD, List.get?_eq_getElem?] using hc
  simp [free, hc2]

/-- Evaluation of free on a record whose count does not reach zero. -/
lemma free_eq_dec (r : FdRegistry) (idx : ℕ) (ok : Bool)
    (hc : (r.records.getD idx default).count ≠ 1) :
    r.free (some idx) ok =
      (false,
       { records := r.records.set idx
           ⟨(r.records.getD idx default).fd,
            (r.records.getD idx default).count - 1⟩,
         free_ := r.free_ },
       false) := by
  have hc2 : (r.records[idx]?.getD default).count ≠ 1 := by
    simpa [List.getD, List.get?_eq_getElem?] using hc
  have hne : (r.records[idx]?.getD default).count - 1 ≠ 0 := by omega
  simp [free, hne]

lemma inv_alloc (r : FdRegistry) (fd : ℤ) (ok : Bool) (h : Inv r) :
    Inv (r.alloc fd ok).2 := by
  obtain ⟨hlt, hnd, hmem, hcons⟩ := h
  rcases hf : r.free_ with _ | ⟨idx, rest⟩
  · have he : r.alloc fd ok = (none, r) := by simp [alloc, hf]
    rw [he]
    exact ⟨hlt, hnd, hmem, hcons⟩
  · cases ok
    · have he : r.alloc fd false = (none, r) := by simp [alloc, hf]
      rw [he]
      exact ⟨hlt, hnd, hmem, hcons⟩
    · rw [alloc_eq_of_free r fd idx rest hf]
      have hidx : idx < r.records.length := hlt idx (by rw [hf]; exact .head _)
      have hcount : (r.records.getD idx default).count = 0 :=
        (hmem idx hidx).1 (by rw [hf]; exact .head _)
      have hnotin : idx ∉ rest := by
        rw [hf] at hnd
        exact (List.nodup_cons.1 hnd).1
      refine ⟨?_, ?_, ?_, ?_⟩
      · intro i hi
        simp only [List.length_set]
        exact hlt i (by rw [hf]; exact .tail _ hi)
      · rw [hf] at hnd
        exact (List.nodup_cons.1 hnd).2
      · intro i hi
        simp only [List.length_set] at hi
        by_cases hieq : i = idx
        · subst hieq
          rw [getD_set_self _ _ _ _ hidx]
          constructor
          · intro hm
            exact absurd hm hnotin
          · intro hz
            exact absurd hz one_ne_zero
        · rw [getD_set_ne r.records idx i _ _ (fun he => hieq he.symm)]
          rw [← hmem i hi, hf]
          constructor
          · intro hm
            exact List.mem_cons_of_mem _ hm
          · intro hm
            rcases List.mem_cons.1 hm with he | hm
            · exact absurd he hieq
            · exact hm
      · have hstep := length_filter_set_ff_tt
          (fun rcd => decide (rcd.count ≠ 0)) r.records idx ⟨fd, 1⟩ default
          hidx (by simp only [decide_eq_false_iff_not, ne_eq, not_not]; exact hcount)
          (by norm_num)
        simp only [inUse, List.length_set]
        rw [hf] at hcons
        simp only [inUse, List.length_cons] at hcons
        rw [hstep]
        omega

lemma inv_free (r : FdRegistry) (idx : ℕ) (ok : Bool) (h : Inv r)
    (hidx : idx < r.records.length)
    (hc1 : 1 ≤ (r.records.getD idx default).count) :
    Inv (r.free (some idx) ok).2.1 := by
  obtain ⟨hlt, hnd, hmem, hcons⟩ := h
  have hnotin : idx ∉ r.free_ := fun hm => by
    have := (hmem idx hidx).1 hm
    omega
  by_cases hc : (r.records.getD idx default).count = 1
  · rw [free_eq_last r idx ok hc]
    refine ⟨?_, ?_, ?_, ?_⟩
    · intro i hi
      simp only [List.length_set]
      rcases List.mem_cons.1 hi with he | hm
      · rw [he]
        exact hidx
      · exact hlt i hm
    · exact List.nodup_cons.2 ⟨hnotin, hnd⟩
    · intro i hi
      simp only [List.length_set] at hi
      by_cases hieq : i = idx
      · subst hieq
        rw [getD_set_self _ _ _ _ hidx]
        simp
      · rw [getD_set_ne r.records idx i _ _ (fun he => hieq he.symm)]
        rw [List.mem_cons, ← hmem i hi]
        constructor
        · rintro (he | hm)
          · exact absurd he hieq
          · exact hm
        · intro hm
          exact Or.inr hm
    · have hstep := length_filter_set_tt_ff
        (fun rcd => decide (rcd.count ≠ 0)) r.records idx ⟨-1, 0⟩ default
        hidx (by simp only [decide_eq_true_eq, ne_eq]; omega) (by norm_num)
      simp only [inUse, List.length_set, List.length_cons]
      simp only [inUse] at hcons
      omega
  · rw [free_eq_dec r idx ok hc]
    refine ⟨?_, ?_, ?_, ?_⟩
    · intro i hi
      simp only [List.length_set]
      exact hlt i hi
    · exact hnd
    · intro i hi
      simp only [List.length_set] at hi
      by_cases hieq : i = idx
      · subst hieq
        rw [getD_set_self _ _ _ _ hidx]
        constructor
        · intro hm
          exact absurd hm hnotin
        · intro hz
          simp only at hz
          omega
      · rw [getD_set_ne r.records idx i _ _ (fun he => hieq he.symm)]
        exact hmem i hi
    · have hstep := length_filter_set_tt_tt
        (fun rcd => decide (rcd.count ≠ 0)) r.records idx
        ⟨(r.records.getD idx default).fd,
         (r.records.getD idx default).count - 1⟩ default hidx
        (by simp only [decide_eq_true_eq, ne_eq]; omega)
        (by simp only [decide_eq_true_eq, ne_eq]; omega)
      simp only [inUse, List.length_set]
      simp only [inUse] at hcons
      omega

lemma inv_applyOp (r : FdRegistry) (op : RegOp) (h : Inv r)
    (hv : ValidOp r op) : Inv (applyOp r op) := by
  cases op with
  | alloc fd ok => exact inv_alloc r fd ok h
  | free rec ok =>
    rcases rec with _ | idx
    · have he : r.free none ok = (false, r, false) := by simp [free]
      simpa [applyOp, he] using h
    · obtain ⟨hidx, hc1⟩ := hv
      exact inv_free r idx ok h hidx hc1

lemma inv_applyOps (r : FdRegistry) (ops : List RegOp) (h : Inv r)
    (hv : ValidOps r ops) : Inv (applyOps r ops) := by
  induction ops generalizing r with
  | nil => simpa [applyOps] using h
  | cons op ops ih =>
    obtain ⟨hv1, hv2⟩ := hv
    have h1 := inv_applyOp r op h hv1
    simpa [applyOps] using ih (applyOp r op) h1 hv2

lemma inv_init (n : ℕ) : Inv (init n true) := by
  by_cases hn : 0 < n
  · refine ⟨?_, ?_, ?_, ?_⟩
    · intro i hi
      simp only [init, hn, and_self, if_true, List.mem_reverse,
        List.mem_range, List.length_replicate, true_and] at hi ⊢
      simpa using hi
    · simp only [init, hn, true_and, if_true]
      exact List.nodup_reverse.2 (List.nodup_range n)
    · intro i hi
      simp only [init, hn, true_and, if_true, List.length_replicate] at hi ⊢
      simp only [List.mem_reverse, List.mem_range]
      constructor
      · intro _
        rw [List.getD_eq_getElem?_getD, List.getElem?_replicate]
        simp [hi]
      · intro _
        exact hi
    · simp [init, hn, inUse, List.filter_replicate]
  · have hn0 : n = 0 := by omega
    subst hn0
    refine ⟨?_, ?_, ?_, ?_⟩ <;> simp [init, construct, inUse]

end FdRegistry

namespace FdRegistry

lemma length_records_applyOp (r : FdRegistry) (op : RegOp) :
    (applyOp r op).records.length = r.records.length := by
  cases op with
  | alloc fd ok =>
    simp only [applyOp]
    rcases hf : r.free_ with _ | ⟨idx, rest⟩
    · simp [alloc, hf]
    · cases ok
      · simp [alloc, hf]
      · rw [alloc_eq_of_free r fd idx rest hf]
        simp
  | free rec ok =>
    simp only [applyOp]
    rcases rec with _ | idx
    · simp [free]
    · by_cases hc : (r.records.getD idx default).count = 1
      · rw [free_eq_last r idx ok hc]
        simp
      · rw [free_eq_dec r idx ok hc]
        simp

lemma length_records_applyOps (r : FdRegistry) (ops : List RegOp) :
    (applyOps r ops).records.length = r.records.length := by
  induction ops generalizing r with
  | nil => rfl
  | cons op ops ih =>
    simp only [applyOps, List.foldl_cons] at ih ⊢
    rw [ih (applyOp r op), length_records_applyOp]

lemma length_records_init (n : ℕ) : (init n true).records.length = n := by
  by_cases hn : 0 < n <;> simp [init, construct, hn]

end FdRegistry

/-- C3: after a successful init, any well-formed sequence of alloc and free
operations keeps the free-list size plus the in-use count equal to the
table's fixed capacity, keeps a record in the free list exactly when its
reference count is zero, and every successful alloc hands out its record
with reference count exactly 1. -/
theorem fdRegistry_invariant_theorem :
    (∀ (n : ℕ) (ops : List FdRegistry.RegOp),
      FdRegistry.ValidOps (FdRegistry.init n true) ops →
      (FdRegistry.applyOps (FdRegistry.init n true) ops).free_.length +
          (FdRegistry.applyOps (FdRegistry.init n true) ops).inUse = n ∧
      (∀ i, i < n →
        (i ∈ (FdRegistry.applyOps (FdRegistry.init n true) ops).free_ ↔
          ((FdRegistry.applyOps (FdRegistry.init n true) ops).records.getD i
            default).count = 0))) ∧
    (∀ (r : FdRegistry) (fd : ℤ) (ok : Bool) (idx : ℕ),
      FdRegistry.Inv r → (r.alloc fd ok).1 = some idx →
      (((r.alloc fd ok).2).records.getD idx default).count = 1) := by
  constructor
  · intro n ops hv
    have hinv := FdRegistry.inv_applyOps (FdRegistry.init n true) ops
      (FdRegistry.inv_init n) hv
    obtain ⟨hlt, hnd, hmem, hcons⟩ := hinv
    have hlen : (FdRegistry.applyOps (FdRegistry.init n true) ops).records.length
        = n := by
      rw [FdRegistry.length_records_applyOps, FdRegistry.length_records_init]
    constructor
    · rw [hlen] at hcons
      exact hcons
    · intro i hi
      exact hmem i (by rw [hlen]; exact hi)
  · intro r fd ok idx hinv hsome
    obtain ⟨hlt, hnd, hmem, hcons⟩ := hinv
    rcases hf : r.free_ with _ | ⟨idx0, rest⟩
    · have : r.alloc fd ok = (none, r) := by simp [FdRegistry.alloc, hf]
      rw [this] at hsome
      exact absurd hsome (by simp)
    · cases ok
      · have : r.alloc fd false = (none, r) := by simp [FdRegistry.alloc, hf]
        rw [this] at hsome
        exact absurd hsome (by simp)
      · rw [FdRegistry.alloc_eq_of_free r fd idx0 rest hf] at hsome ⊢
        have hidx0 : idx0 < r.records.length :=
          hlt idx0 (by rw [hf]; exact .head _)
        simp only [Option.some_inj] at hsome
        subst hsome
        simp only
        rw [getD_set_self _ _ _ _ hidx0]

/-- Witness for C3 at capacity 2 with a concrete alloc/free sequence. -/
theorem fdRegistry_invariant_witness :
    FdRegistry.ValidOps (FdRegistry.init 2 true)
      [.alloc 7 true, .free (some 1) true] ∧
    (FdRegistry.applyOps (FdRegistry.init 2 true)
        [.alloc 7 true, .free (some 1) true]).free_.length +
      (FdRegistry.applyOps (FdRegistry.init 2 true)
        [.alloc 7 true, .free (some 1) true]).inUse = 2 := by
  refine ⟨by decide, ?_⟩
  exact (fdRegistry_invariant_theorem.1 2 [.alloc 7 true, .free (some 1) true]
    (by decide)).1

/-- C4: FdRegistry::free decrements the record's reference count; exactly
when the count reaches zero it issues the kernel table update with the empty
sentinel, pushes the slot back on the free list (whether or not the kernel
update succeeded) and returns the kernel-update success; otherwise it
returns false without touching the free list. -/
theorem fdRegistry_free_theorem (r : FdRegistry) (idx : ℕ) (kOk : Bool)
    (hidx : idx < r.records.length)
    (hc1 : 1 ≤ (r.records.getD idx default).count) :
    (((r.free (some idx) kOk).2.1).records.getD idx default).count =
      (r.records.getD idx default).count - 1 ∧
    ((r.free (some idx) kOk).2.2 = true ↔
      (r.records.getD idx default).count = 1) ∧
    ((r.records.getD idx default).count = 1 →
      (r.free (some idx) kOk).1 = kOk ∧
      (((r.free (some idx) kOk).2.1).records.getD idx default).fd = -1 ∧
      ((r.free (some idx) kOk).2.1).free_ = idx :: r.free_) ∧
    ((r.records.getD idx default).count ≠ 1 →
      (r.free (some idx) kOk).1 = false ∧
      ((r.free (some idx) kOk).2.1).free_ = r.free_) := by
  by_cases hc : (r.records.getD idx default).count = 1
  · rw [FdRegistry.free_eq_last r idx kOk hc]
    refine ⟨?_, ?_, ?_, ?_⟩
    · simp only
      rw [getD_set_self _ _ _ _ hidx, hc]
      rfl
    · simpa using hc
    · intro _
      refine ⟨rfl, ?_, rfl⟩
      simp only
      rw [getD_set_self _ _ _ _ hidx]
    · intro hne
      exact absurd hc hne
  · rw [FdRegistry.free_eq_dec r idx kOk hc]
    refine ⟨?_, ?_, ?_, ?_⟩
    · simp only
      rw [getD_set_self _ _ _ _ hidx]
    · simpa using hc
    · intro h1
      exact absurd h1 hc
    · intro _
      exact ⟨rfl, rfl⟩

/-- Witness for C4: a single-slot registry holding its last reference,
freed while the kernel update fails. -/
theorem fdRegistry_free_witness :
    (0 < ([⟨5, 1⟩] : List FdRegistrationRecord).length ∧
      1 ≤ ((⟨[⟨5, 1⟩], []⟩ : FdRegistry).records.getD 0 default).count) ∧
    ((((⟨[⟨5, 1⟩], []⟩ : FdRegistry).free (some 0) false).2.1).records.getD 0
        default).count =
      (((⟨[⟨5, 1⟩], []⟩ : FdRegistry).records.getD 0 default)).count - 1 := by
  refine ⟨⟨by decide, by decide⟩, ?_⟩
  exact (fdRegistry_free_theorem ⟨[⟨5, 1⟩], []⟩ 0 false (by decide)
    (by decide)).1

/-- C10: free with a null record returns false, issues no kernel update and
leaves the registry exactly as it was; free on a record whose reference
count exceeds one returns false, issues no kernel update, leaves the free
list unchanged, only decrements that record's count (its descriptor and all
other records untouched). -/
theorem fdRegistry_free_frame_theorem (r : FdRegistry) (kOk : Bool) :
    r.free none kOk = (false, r, false) ∧
    (∀ idx, idx < r.records.length →
      1 < (r.records.getD idx default).count →
      (r.free (some idx) kOk).1 = false ∧
      (r.free (some idx) kOk).2.2 = false ∧
      ((r.free (some idx) kOk).2.1).free_ = r.free_ ∧
      (((r.free (some idx) kOk).2.1).records.getD idx default).count =
        (r.records.getD idx default).count - 1 ∧
      (((r.free (some idx) kOk).2.1).records.getD idx default).fd =
        (r.records.getD idx default).fd ∧
      (∀ j, j ≠ idx →
        ((r.free (some idx) kOk).2.1).records.getD j default =
          r.records.getD j default)) := by
  constructor
  · simp [FdRegistry.free]
  · intro idx hidx hc
    have hne : (r.records.getD idx default).count ≠ 1 := by omega
    rw [FdRegistry.free_eq_dec r idx kOk hne]
    refine ⟨rfl, rfl, rfl, ?_, ?_, ?_⟩
    · simp only
      rw [getD_set_self _ _ _ _ hidx]
    · simp only
      rw [getD_set_self _ _ _ _ hidx]
    · intro j hj
      simp only
      rw [getD_set_ne r.records idx j _ _ (fun he => hj he.symm)]

/-- Witness for C10: a two-slot registry whose slot 0 holds two references,
freed once with the kernel oracle failing. -/
theorem fdRegistry_free_frame_witness :
    ((⟨[⟨5, 2⟩, ⟨6, 1⟩], []⟩ : FdRegistry).free none false =
      (false, ⟨[⟨5, 2⟩, ⟨6, 1⟩], []⟩, false)) ∧
    (0 < ([⟨5, 2⟩, ⟨6, 1⟩] : List FdRegistrationRecord).length ∧
      1 < ((⟨[⟨5, 2⟩, ⟨6, 1⟩], []⟩ : FdRegistry).records.getD 0
        default).count) ∧
    (((⟨[⟨5, 2⟩, ⟨6, 1⟩], []⟩ : FdRegistry).free (some 0) false).2.1).free_ =
      (⟨[⟨5, 2⟩, ⟨6, 1⟩], []⟩ : FdRegistry).free_ := by
  refine ⟨(fdRegistry_free_frame_theorem ⟨[⟨5, 2⟩, ⟨6, 1⟩], []⟩ false).1,
    ⟨by decide, by decide⟩, ?_⟩
  exact ((fdRegistry_free_frame_theorem ⟨[⟨5, 2⟩, ⟨6, 1⟩], []⟩ false).2 0
    (by decide) (by decide)).2.2.1

/-! ### Entry-pool construction facts -/

lemma getD_replicate {α : Type} (a d : α) (n j : ℕ) (h : j < n) :
    (List.replicate n a).getD j d = a := by
  rw [List.getD_eq_getElem?_getD, List.getElem?_replicate]
  simp [h]

lemma wireFold_length (es : List IoSqe) (k : ℕ) :
    ((List.range' 2 k).foldl wireStep es).length = es.length := by
  induction k generalizing es with
  | zero => rfl
  | succ k ih =>
    have hc : List.range' 2 (k + 1) = List.range' 2 k ++ [2 + k] := by
      have hc0 := @List.range'_concat 1 2 k
      rw [one_mul] at hc0
      exact hc0
    rw [hc, List.foldl_append]
    simp only [List.foldl_cons, List.foldl_nil, wireStep, List.length_set]
    exact ih es

lemma wireFold_getD (es : List IoSqe) :
    ∀ (k j : ℕ), k + 1 < es.length →
      ((List.range' 2 k).foldl wireStep es).getD j default =
        if 1 ≤ j ∧ j ≤ k then
          { backendCb := some .processPollIoCb, next := some (j + 1) }
        else es.getD j default := by
  intro k
  induction k with
  | zero =>
    intro j _
    rw [if_neg (by omega)]
    rfl
  | succ k ih =>
    intro j hk
    have hc : List.range' 2 (k + 1) = List.range' 2 k ++ [2 + k] := by
      have hc0 := @List.range'_concat 1 2 k
      rw [one_mul] at hc0
      exact hc0
    rw [hc, List.foldl_append]
    simp only [List.foldl_cons, List.foldl_nil, wireStep]
    have hkl : (2 + k) - 1 = k + 1 := by omega
    rw [hkl]
    have hlen : ((List.range' 2 k).foldl wireStep es).length = es.length :=
      wireFold_length es k
    by_cases hj : j = k + 1
    · subst hj
      rw [getD_set_self _ _ _ _ (by omega)]
      rw [if_pos (by omega)]
      have h2 : 2 + k = k + 1 + 1 := by omega
      rw [h2]
    · rw [getD_set_ne _ _ _ _ _ (fun he => hj he.symm)]
      rw [ih j (by omega)]
      by_cases hj2 : 1 ≤ j ∧ j ≤ k
      · rw [if_pos hj2, if_pos (by omega)]
      · rw [if_neg hj2, if_neg (by omega)]

/-- Pointwise contents of the entry array right after construction. -/
lemma initEntryPool_getD (maxSubmit : ℕ) (h : 1 ≤ maxSubmit) :
    ∀ j, j < 2 * maxSubmit →
      (initEntryPool maxSubmit).entries.getD j default =
        if j = 0 then { backendCb := some .processTimerIoCb, next := none }
        else if j = 2 * maxSubmit - 1 then
          { backendCb := some .processPollIoCb, next := none }
        else { backendCb := some .processPollIoCb, next := some (j + 1) } := by
  intro j hj
  have hn : 2 ≤ 2 * maxSubmit := by omega
  simp only [initEntryPool]
  have hlen0 : (List.replicate (2 * maxSubmit) ({} : IoSqe)).length =
      2 * maxSubmit := by simp
  have hlen1 : ((List.replicate (2 * maxSubmit) ({} : IoSqe)).set 0
      { backendCb := some .processTimerIoCb }).length = 2 * maxSubmit := by
    simp
  have hlen2 : ((List.range' 2 (2 * maxSubmit - 2)).foldl wireStep
      ((List.replicate (2 * maxSubmit) ({} : IoSqe)).set 0
        { backendCb := some .processTimerIoCb })).length = 2 * maxSubmit := by
    rw [wireFold_length]
    exact hlen1
  by_cases hjl : j = 2 * maxSubmit - 1
  · subst hjl
    rw [getD_set_self _ _ _ _ (by omega)]
    rw [if_neg (by omega), if_pos rfl]
    rw [wireFold_getD _ _ _ (by omega)]
    rw [if_neg (by omega)]
    rw [getD_set_ne _ _ _ _ _ (by omega)]
    rw [getD_replicate _ _ _ _ (by omega)]
  · rw [getD_set_ne _ _ _ _ _ (fun he => hjl he.symm)]
    rw [wireFold_getD _ _ _ (by omega)]
    by_cases hj0 : j = 0
    · subst hj0
      rw [if_neg (by omega), if_pos rfl]
      rw [getD_set_self _ _ _ _ (by omega)]
    · rw [if_pos (by omega), if_neg hj0, if_neg hjl]

/-- Walking the constructed chain from `s` up to a terminal entry `t` yields
the interval of indices. -/
lemma chainFrom_spec (es : List IoSqe) :
    ∀ (fuel s t : ℕ), s ≤ t → t - s < fuel →
      (∀ j, s ≤ j → j < t → (es.getD j default).next = some (j + 1)) →
      (es.getD t default).next = none →
      chainFrom es (some s) fuel = List.range' s (t - s + 1) := by
  intro fuel
  induction fuel with
  | zero =>
    intro s t hst hfuel hmid hend
    omega
  | succ fuel ih =>
    intro s t hst hfuel hmid hend
    by_cases hse : s = t
    · subst hse
      simp only [chainFrom, hend]
      rw [Nat.sub_self]
      rfl
    · have hlt : s < t := by omega
      have hnext : (es.getD s default).next = some (s + 1) :=
        hmid s le_rfl hlt
      simp only [chainFrom, hnext]
      rw [ih (s + 1) t (by omega) (by omega)
        (fun j h1 h2 => hmid j (by omega) h2) hend]
      have harg : t - (s + 1) + 1 = t - s := by omega
      rw [harg, List.range'_succ s (t - s) 1]

/-- C7: after construction the entry pool holds exactly 2 × maxSubmit
entries; the entry at index 0 is wired to the timer-completion callback and
is not on the constructed free list; every other entry is wired to the
poll-completion callback; and the constructed free list consists exactly of
the entries 1 .. 2 × maxSubmit - 1. -/
theorem entryPool_construction_theorem (maxSubmit : ℕ) (h : 1 ≤ maxSubmit) :
    (initEntryPool maxSubmit).entries.length = 2 * maxSubmit ∧
    ((initEntryPool maxSubmit).entries.getD 0 default).backendCb =
      some .processTimerIoCb ∧
    (∀ i, 1 ≤ i → i < 2 * maxSubmit →
      ((initEntryPool maxSubmit).entries.getD i default).backendCb =
        some .processPollIoCb) ∧
    (initEntryPool maxSubmit).freeList = List.range' 1 (2 * maxSubmit - 1) ∧
    0 ∉ (initEntryPool maxSubmit).freeList := by
  have hn : 2 ≤ 2 * maxSubmit := by omega
  have hlen : (initEntryPool maxSubmit).entries.length = 2 * maxSubmit := by
    simp only [initEntryPool]
    rw [List.length_set, wireFold_length]
    simp
  have hfree : (initEntryPool maxSubmit).freeList =
      List.range' 1 (2 * maxSubmit - 1) := by
    have hfh : (initEntryPool maxSubmit).freeHead = some 1 := rfl
    simp only [EntryPool.freeList, hfh, hlen]
    rw [chainFrom_spec (initEntryPool maxSubmit).entries (2 * maxSubmit) 1
      (2 * maxSubmit - 1) (by omega) (by omega) ?_ ?_]
    · have harg : 2 * maxSubmit - 1 - 1 + 1 = 2 * maxSubmit - 1 := by omega
      rw [harg]
    · intro j h1 h2
      rw [initEntryPool_getD maxSubmit h j (by omega)]
      rw [if_neg (by omega), if_neg (by omega)]
    · rw [initEntryPool_getD maxSubmit h (2 * maxSubmit - 1) (by omega)]
      rw [if_neg (by omega), if_pos rfl]
  refine ⟨hlen, ?_, ?_, hfree, ?_⟩
  · rw [initEntryPool_getD maxSubmit h 0 (by omega), if_pos rfl]
  · intro i h1 hi
    rw [initEntryPool_getD maxSubmit h i hi]
    by_cases h2 : i = 2 * maxSubmit - 1
    · rw [if_neg (by omega), if_pos h2]
    · rw [if_neg (by omega), if_neg h2]
  · rw [hfree]
    intro hm
    rw [List.mem_range'_1] at hm
    omega

/-- Witness for C7 at maxSubmit = 2: a pool of 4 entries whose free list is
[1, 2, 3]. -/
theorem entryPool_construction_witness :
    (1 ≤ 2) ∧
    (initEntryPool 2).entries.length = 2 * 2 ∧
    (initEntryPool 2).freeList = List.range' 1 (2 * 2 - 1) ∧
    0 ∉ (initEntryPool 2).freeList := by
  have hth := entryPool_construction_theorem 2 (by decide)
  exact ⟨by decide, hth.1, hth.2.2.2.1, hth.2.2.2.2⟩

/-! ### Completion retrieval facts -/

/-- Closed form of the completion-processing loop: starting from counter
`i ≤ maxGet` it consumes `min (maxGet - i) (length cq)` completions,
dispatching each entry's callback on the raw result just before marking the
completion seen. -/
lemma processCqes_spec (maxGet : ℕ) :
    ∀ (cq : List Cqe) (i : ℕ), i ≤ maxGet →
      processCqes maxGet i cq =
        (i + min (maxGet - i) cq.length,
         cq.drop (min (maxGet - i) cq.length),
         (cq.take (min (maxGet - i) cq.length)).flatMap
           (fun c => [.callback c.data c.res, .seen c.data])) := by
  intro cq
  induction cq with
  | nil =>
    intro i hi
    simp [processCqes]
  | cons c rest ih =>
    intro i hi
    by_cases hlt : i < maxGet
    · have hmin : min (maxGet - i) (rest.length + 1) =
          min (maxGet - (i + 1)) rest.length + 1 := by omega
      simp only [processCqes, if_pos hlt, ih (i + 1) hlt, List.length_cons,
        hmin, List.drop_succ_cons, List.take_succ_cons, List.flatMap_cons,
        Prod.mk.injEq]
      exact ⟨by omega, by simp, by simp⟩
    · have hi2 : i = maxGet := by omega
      subst hi2
      simp [processCqes, hlt]

/-- Closed form of getActiveEvents: it blocks for ever exactly on WAIT with
an empty completion queue; otherwise it consumes `min maxGet (length cq)`
completions, returns that count, and its trace dispatches each consumed
completion's callback on the raw result just before marking it seen. -/
lemma getActiveEvents_eq (mode : WaitForEventsMode) (maxGet : ℕ)
    (s : RingState) :
    getActiveEvents mode maxGet s =
      if mode = .wait ∧ s.cq = [] then none
      else
        some (min maxGet s.cq.length,
          { s with cq := s.cq.drop (min maxGet s.cq.length) },
          (s.cq.take (min maxGet s.cq.length)).flatMap
            (fun c => [.callback c.data c.res, .seen c.data])) := by
  have hcore := processCqes_spec maxGet s.cq 0 (Nat.zero_le _)
  rw [Nat.sub_zero] at hcore
  cases mode with
  | wait =>
    cases hcq : s.cq with
    | nil => simp [getActiveEvents, hcq]
    | cons c rest =>
      rw [hcq] at hcore
      simp only [getActiveEvents, hcq, hcore]
      simp
  | dontWait =>
    simp only [getActiveEvents, hcore]
    simp

/-- C6: whenever getActiveEvents returns, the count it returns equals the
number of completions processed (the lesser of maxGet and the number
available, so never more than maxGet), the processed completions leave the
queue, and each of them has its entry's stored callback invoked with the raw
completion result just before it is marked consumed, in queue order;
DONT_WAIT never blocks (possibly returning zero), while WAIT blocks exactly
as long as no completion is ready. -/
theorem getActiveEvents_theorem :
    (∀ (mode : WaitForEventsMode) (maxGet : ℕ) (s : RingState) (cnt : ℕ)
      (s2 : RingState) (tr : List CqEvent),
      getActiveEvents mode maxGet s = some (cnt, s2, tr) →
      cnt = min maxGet s.cq.length ∧
      cnt ≤ maxGet ∧
      s2 = { s with cq := s.cq.drop cnt } ∧
      tr = (s.cq.take cnt).flatMap
        (fun c => [.callback c.data c.res, .seen c.data])) ∧
    (∀ (maxGet : ℕ) (s : RingState),
      (getActiveEvents .dontWait maxGet s).isSome) ∧
    (∀ (maxGet : ℕ) (s : RingState),
      getActiveEvents .wait maxGet s = none ↔ s.cq = []) := by
  refine ⟨?_, ?_, ?_⟩
  · intro mode maxGet s cnt s2 tr h
    rw [getActiveEvents_eq] at h
    by_cases hc : mode = .wait ∧ s.cq = []
    · rw [if_pos hc] at h
      exact absurd h (by simp)
    · rw [if_neg hc] at h
      simp only [Option.some_inj, Prod.mk.injEq] at h
      obtain ⟨h1, h2, h3⟩ := h
      subst h1
      exact ⟨rfl, Nat.min_le_left _ _, h2.symm, h3.symm⟩
  · intro maxGet s
    rw [getActiveEvents_eq]
    simp
  · intro maxGet s
    rw [getActiveEvents_eq]
    by_cases hcq : s.cq = [] <;> simp [hcq]

/-- Witness for C6: WAIT over a three-deep completion queue with maxGet = 2
processes exactly two completions. -/
theorem getActiveEvents_witness :
    (2 : ℕ) = min 2 ([⟨1, 5⟩, ⟨2, 6⟩, ⟨3, 7⟩] : List Cqe).length ∧
    (2 : ℕ) ≤ 2 ∧
    ({ sq := [], errs := [], cq := [⟨3, 7⟩] } : RingState) =
      { sq := [], errs := [], cq :=
        ([⟨1, 5⟩, ⟨2, 6⟩, ⟨3, 7⟩] : List Cqe).drop 2 } ∧
    ([.callback 1 5, .seen 1, .callback 2 6, .seen 2] : List CqEvent) =
      (([⟨1, 5⟩, ⟨2, 6⟩, ⟨3, 7⟩] : List Cqe).take 2).flatMap
        (fun c => [.callback c.data c.res, .seen c.data]) := by
  exact getActiveEvents_theorem.1 .wait 2 ⟨[], [], [⟨1, 5⟩, ⟨2, 6⟩, ⟨3, 7⟩]⟩
    2 ⟨[], [], [⟨3, 7⟩]⟩ [.callback 1 5, .seen 1, .callback 2 6, .seen 2] rfl

/-! ### Busy-retry submission facts -/

/-- Number of leading injected-busy answers of the submit fault schedule. -/
def leadingBusy : List (Option ℤ) → ℕ
  | some e :: rest => if e = -EBUSY then leadingBusy rest + 1 else 0
  | _ => 0

/-- DONT_WAIT closed form: never blocks. -/
lemma getActiveEvents_dw (maxGet : ℕ) (s : RingState) :
    getActiveEvents .dontWait maxGet s =
      some (min maxGet s.cq.length,
        { s with cq := s.cq.drop (min maxGet s.cq.length) },
        (s.cq.take (min maxGet s.cq.length)).flatMap
          (fun c => [.callback c.data c.res, .seen c.data])) := by
  rw [getActiveEvents_eq]
  simp

lemma submitBusyCheck_spec (maxGet : ℕ) : ∀ (s : RingState),
    (submitBusyCheck maxGet s).1 ≠ -EBUSY ∧
    (submitBusyCheck maxGet s).2.2 = leadingBusy s.errs := by
  intro s
  generalize hn : s.errs.length = n
  induction n using Nat.strong_induction_on generalizing s with
  | _ n ih =>
    rcases hs : s.errs with _ | ⟨e, rest⟩
    · rw [submitBusyCheck]
      split
      · rename_i h
        exfalso
        simp [ioUringSubmit, hs, EBUSY] at h
      · simp [ioUringSubmit, hs, EBUSY, leadingBusy]
    · rcases e with _ | v
      · rw [submitBusyCheck]
        split
        · rename_i h
          exfalso
          simp [ioUringSubmit, hs, EBUSY] at h
        · simp [ioUringSubmit, hs, EBUSY, leadingBusy]
      · by_cases hv : v = -EBUSY
        · subst hv
          rw [submitBusyCheck]
          split
          · rename_i h
            have hrec := ih rest.length (by rw [hs] at hn; simp at hn; omega)
              ⟨s.sq, rest, s.cq.drop (min maxGet s.cq.length)⟩ rfl
            simp only [ioUringSubmit, hs, getActiveEvents_dw,
              Option.getD_some] at h ⊢
            simp only [EBUSY] at hrec h ⊢
            refine ⟨hrec.1, ?_⟩
            rw [hrec.2]
            simp [leadingBusy, hs, EBUSY]
          · rename_i h
            exfalso
            simp [ioUringSubmit, hs, EBUSY] at h
        · have hv2 : ¬v = -16 := by simpa [EBUSY] using hv
          rw [submitBusyCheck]
          split
          · rename_i h
            exfalso
            simp [ioUringSubmit, hs, EBUSY] at h
            exact hv2 h
          · simp [ioUringSubmit, hs, leadingBusy, hv2, EBUSY]

lemma submitBusyCheckAndWait_spec (maxGet : ℕ) : ∀ (s : RingState),
    (submitBusyCheckAndWait maxGet s).1 ≠ -EBUSY ∧
    (submitBusyCheckAndWait maxGet s).2.2 = leadingBusy s.errs := by
  intro s
  generalize hn : s.errs.length = n
  induction n using Nat.strong_induction_on generalizing s with
  | _ n ih =>
    rcases hs : s.errs with _ | ⟨e, rest⟩
    · rw [submitBusyCheckAndWait]
      split
      · rename_i h
        exfalso
        simp [ioUringSubmitAndWait, hs, EBUSY] at h
      · simp [ioUringSubmitAndWait, hs, EBUSY, leadingBusy]
    · rcases e with _ | v
      · rw [submitBusyCheckAndWait]
        split
        · rename_i h
          exfalso
          simp [ioUringSubmitAndWait, hs, EBUSY] at h
        · simp [ioUringSubmitAndWait, hs, EBUSY, leadingBusy]
      · by_cases hv : v = -EBUSY
        · subst hv
          rw [submitBusyCheckAndWait]
          split
          · rename_i h
            have hrec := ih rest.length (by rw [hs] at hn; simp at hn; omega)
              ⟨s.sq, rest, s.cq.drop (min maxGet s.cq.length)⟩ rfl
            simp only [ioUringSubmitAndWait, hs, getActiveEvents_dw,
              Option.getD_some] at h ⊢
            simp only [EBUSY] at hrec h ⊢
            refine ⟨hrec.1, ?_⟩
            rw [hrec.2]
            simp [leadingBusy, hs, EBUSY]
          · rename_i h
            exfalso
            simp [ioUringSubmitAndWait, hs, EBUSY] at h
        · have hv2 : ¬v = -16 := by simpa [EBUSY] using hv
          rw [submitBusyCheckAndWait]
          split
          · rename_i h
            exfalso
            simp [ioUringSubmitAndWait, hs, EBUSY] at h
            exact hv2 h
          · simp [ioUringSubmitAndWait, hs, leadingBusy, hv2, EBUSY]

/-- C5: both busy-checking submit variants retry the submit system call
after a non-blocking completion drain for as long as the kernel answers
busy — one drain round per busy answer — and consequently neither ever
hands -EBUSY back to its caller. -/
theorem submitBusyCheck_theorem :
    (∀ (maxGet : ℕ) (s : RingState),
      (submitBusyCheck maxGet s).1 ≠ -EBUSY ∧
      (submitBusyCheck maxGet s).2.2 = leadingBusy s.errs) ∧
    (∀ (maxGet : ℕ) (s : RingState),
      (submitBusyCheckAndWait maxGet s).1 ≠ -EBUSY ∧
      (submitBusyCheckAndWait maxGet s).2.2 = leadingBusy s.errs) :=
  ⟨fun maxGet s => submitBusyCheck_spec maxGet s,
   fun maxGet s => submitBusyCheckAndWait_spec maxGet s⟩

/-- Witness for C5: two injected busy answers cause exactly two drain
rounds and a non-busy result. -/
theorem submitBusyCheck_witness :
    (submitBusyCheck 10 ⟨[.pollRemove 3], [some (-16), some (-16)],
      [⟨1, 0⟩, ⟨2, 0⟩]⟩).1 ≠ -EBUSY ∧
    (submitBusyCheck 10 ⟨[.pollRemove 3], [some (-16), some (-16)],
      [⟨1, 0⟩, ⟨2, 0⟩]⟩).2.2 =
      leadingBusy [some (-16), some (-16)] :=
  submitBusyCheck_theorem.1 10
    ⟨[.pollRemove 3], [some (-16), some (-16)], [⟨1, 0⟩, ⟨2, 0⟩]⟩

/-! ### Teardown facts -/

lemma releaseAll_spec (l : List ℕ) : ∀ (n : ℕ),
    releaseAll l n = (n - l.length, l.map CleanupEvent.release) := by
  induction l with
  | nil =>
    intro n
    simp [releaseAll]
  | cons e rest ih =>
    intro n
    simp only [releaseAll, ih (n - 1), List.map_cons, List.length_cons,
      Prod.mk.injEq]
    exact ⟨by omega, trivial⟩

lemma drainInFlight_self (l : List ℕ) :
    drainInFlight l.length l = some (0, [], l.map CleanupEvent.waitRelease) := by
  induction l with
  | nil => rfl
  | cons e rest ih => simp [drainInFlight, ih]

/-- C2: on an open ring whose in-use count tallies the pending, active and
in-flight entries, cleanup first releases every pending submit-list entry
and every active-events entry without consulting the kernel, then
block-waits each in-flight completion out and releases its entry as it
arrives, and closes the ring last; afterwards no entry is in use and the
ring descriptor is closed. -/
theorem cleanup_theorem (s : CleanupState) (hfd : 0 < s.ringFd)
    (hinv : s.numInUse =
      s.submitList_.length + s.activeEvents_.length + s.inFlight.length) :
    cleanup s = some
      ({ submitList_ := [], activeEvents_ := [], inFlight := [],
         numInUse := 0, ringFd := -1 },
       s.submitList_.map .release ++ s.activeEvents_.map .release ++
         s.inFlight.map .waitRelease ++ [.queueExit]) := by
  rw [cleanup, if_pos hfd]
  simp only [releaseAll_spec]
  have h2 : s.numInUse - s.submitList_.length - s.activeEvents_.length =
      s.inFlight.length := by omega
  rw [h2, drainInFlight_self]

/-- Witness for C2: two pending, one active and two in-flight entries on an
open ring drain in phase order and close the ring. -/
theorem cleanup_witness :
    cleanup ⟨[1, 2], [3], [4, 5], 5, 3⟩ = some
      ({ submitList_ := [], activeEvents_ := [], inFlight := [],
         numInUse := 0, ringFd := -1 },
       ([1, 2].map .release) ++ ([3].map .release) ++
         ([4, 5].map .waitRelease) ++ [.queueExit]) :=
  cleanup_theorem ⟨[1, 2], [3], [4, 5], 5, 3⟩ (by decide) (by decide)

/-! ### Availability-probe facts -/

lemma isAvailableSeq_done (ok b : Bool) : ∀ (k : ℕ),
    isAvailableSeq ok k ⟨b, true⟩ = (List.replicate k b, ⟨b, true⟩, 0) := by
  intro k
  induction k with
  | zero => rfl
  | succ k ih =>
    rw [List.replicate_succ]
    simp [isAvailableSeq, isAvailable, ih]

/-- C8: over any number k ≥ 1 of isAvailable calls, the trial construction
is attempted exactly once; every call returns the same cached value, namely
whether the trial construction succeeded; and the trial backend itself is
torn down by cleanup, ending with its ring closed and no entry in use. -/
theorem isAvailable_theorem (ok : Bool) (k : ℕ) (hk : 1 ≤ k) :
    isAvailableSeq ok k probeInit = (List.replicate k ok, ⟨ok, true⟩, 1) ∧
    (cleanup trialBackendState).map
      (fun w => (w.1.ringFd, w.1.numInUse)) = some (-1, 0) := by
  constructor
  · rcases k with _ | k
    · omega
    · have h1 : isAvailable ok probeInit = (ok, ⟨ok, true⟩, true) := by
        cases ok <;> simp [isAvailable, probeInit]
      rw [List.replicate_succ]
      simp [isAvailableSeq, h1, isAvailableSeq_done]
  · rfl

/-- Witness for C8: three calls on a kernel without ring support attempt the
trial construction once and all report unavailable. -/
theorem isAvailable_witness :
    isAvailableSeq false 3 probeInit =
      (List.replicate 3 false, ⟨false, true⟩, 1) ∧
    (cleanup trialBackendState).map
      (fun w => (w.1.ringFd, w.1.numInUse)) = some (-1, 0) :=
  isAvailable_theorem false 3 (by decide)

/-! ### Cancellation facts -/

lemma submitBusyCheck_eq_nil (maxGet : ℕ) (s : RingState)
    (hs : s.errs = []) :
    submitBusyCheck maxGet s = ((s.sq.length : ℤ), { s with sq := [] }, 0) := by
  rw [submitBusyCheck]
  split
  · rename_i h
    exfalso
    simp [ioUringSubmit, hs, EBUSY] at h
  · simp [ioUringSubmit, hs]

lemma submitBusyCheck_eq_single (maxGet : ℕ) (s : RingState) (v : ℤ)
    (hs : s.errs = [some v]) (hv : v ≠ -EBUSY) :
    submitBusyCheck maxGet s = (v, { s with errs := [] }, 0) := by
  have hv2 : ¬v = -16 := by simpa [EBUSY] using hv
  rw [submitBusyCheck]
  split
  · rename_i h
    exfalso
    simp [ioUringSubmit, hs, EBUSY] at h
    exact hv2 h
  · simp [ioUringSubmit, hs]

/-- C9: cancelOne pops one fresh entry off the pool free list (an exhausted
pool returns 0 untouched), fills a submission slot with a poll-remove
request targeting the given entry, submits once through the busy-checking
submit, and returns the raw submit result; on a negative result the freshly
allocated cancellation entry goes back onto the pool free list, and no
second submit is attempted (the fault schedule is consumed exactly once). -/
theorem cancelOne_theorem :
    (∀ (maxGet : ℕ) (s : RingState) (target : ℕ),
      cancelOne maxGet [] s target = (0, [], s)) ∧
    (∀ (maxGet : ℕ) (e : ℕ) (rest : List ℕ) (s : RingState) (target : ℕ)
      (v : ℤ), v < 0 → v ≠ -EBUSY → s.errs = [some v] →
      cancelOne maxGet (e :: rest) s target =
        (v, e :: rest, ⟨s.sq ++ [.pollRemove target], [], s.cq⟩)) ∧
    (∀ (maxGet : ℕ) (e : ℕ) (rest : List ℕ) (s : RingState) (target : ℕ),
      s.errs = [] →
      cancelOne maxGet (e :: rest) s target =
        (((s.sq.length + 1 : ℕ) : ℤ), rest, ⟨[], s.errs, s.cq⟩)) := by
  refine ⟨?_, ?_, ?_⟩
  · intro maxGet s target
    rfl
  · intro maxGet e rest s target v hv0 hvb hs
    have hstep := submitBusyCheck_eq_single maxGet
      ⟨s.sq ++ [SqeOp.pollRemove target], s.errs, s.cq⟩ v (by simpa using hs)
      hvb
    simp only [cancelOne, prepSqe, hstep]
    rw [if_pos hv0]
  · intro maxGet e rest s target hs
    have hstep := submitBusyCheck_eq_nil maxGet
      ⟨s.sq ++ [SqeOp.pollRemove target], s.errs, s.cq⟩ (by simpa using hs)
    simp only [cancelOne, prepSqe, hstep]
    rw [if_neg (by omega)]
    simp [hs]

/-- Witness for C9: a failing submit (-22, invalid argument) returns the
error and puts the cancellation entry back on the pool free list. -/
theorem cancelOne_witness :
    ((-22 : ℤ) < 0 ∧ (-22 : ℤ) ≠ -EBUSY ∧
      (⟨[], [some (-22)], []⟩ : RingState).errs = [some (-22)]) ∧
    cancelOne 10 [4, 5, 6] ⟨[], [some (-22)], []⟩ 9 =
      (-22, [4, 5, 6], ⟨[SqeOp.pollRemove 9], [], []⟩) := by
  refine ⟨⟨by decide, by decide, rfl⟩, ?_⟩
  exact cancelOne_theorem.2.1 10 4 [5, 6] ⟨[], [some (-22)], []⟩ 9 (-22)
    (by decide) (by decide) rfl

/-! ### Batched-submission facts -/

lemma submitBusyCheckAndWait_eq_nil (maxGet : ℕ) (s : RingState)
    (hs : s.errs = []) :
    submitBusyCheckAndWait maxGet s =
      ((s.sq.length : ℤ), { s with sq := [] }, 0) := by
  rw [submitBusyCheckAndWait]
  split
  · rename_i h
    exfalso
    simp [ioUringSubmitAndWait, hs, EBUSY] at h
  · simp [ioUringSubmitAndWait, hs]

lemma submitBusyCheckAndWait_eq_single (maxGet : ℕ) (s : RingState) (v : ℤ)
    (hs : s.errs = [some v]) (hv : v ≠ -EBUSY) :
    submitBusyCheckAndWait maxGet s = (v, { s with errs := [] }, 0) := by
  have hv2 : ¬v = -16 := by simpa [EBUSY] using hv
  rw [submitBusyCheckAndWait]
  split
  · rename_i h
    exfalso
    simp [ioUringSubmitAndWait, hs, EBUSY] at h
    exact hv2 h
  · simp [ioUringSubmitAndWait, hs]

/-- Honest-kernel run of the submitList loop: with no injected faults, `i`
slots already filled and the queue non-empty, the loop succeeds and the
submit calls report batch sizes of at most maxSubmit that sum up to all the
filled slots. -/
lemma submitListAux_honest (getPollFlags : ℕ → ℕ) (maxSubmit maxGet : ℕ)
    (mode : WaitForEventsMode) (hms : 1 ≤ maxSubmit) :
    ∀ (q : List EventData) (i ret : ℕ) (s : RingState),
      q ≠ [] → i < maxSubmit → s.errs = [] → s.sq.length = i →
      ∃ (sf : RingState) (calls : List ℤ),
        submitListAux getPollFlags maxSubmit maxGet mode q i ret s =
          some (ret + i + q.length, sf, calls) ∧
        calls.length = (i + q.length + maxSubmit - 1) / maxSubmit ∧
        (∀ c ∈ calls, 1 ≤ c ∧ c ≤ (maxSubmit : ℤ)) ∧
        calls.sum = ((i + q.length : ℕ) : ℤ) := by
  intro q
  induction q with
  | nil =>
    intro i ret s hq
    exact absurd rfl hq
  | cons ev rest ih =>
    intro i ret s _ hi herrs hsq
    have hlen1 : (s.sq ++ [pollAddOf getPollFlags ev]).length = i + 1 := by
      simp [hsq]
    by_cases hrest : rest = []
    · subst hrest
      have heval : submitListAux getPollFlags maxSubmit maxGet mode [ev] i
          ret s =
          some (ret + (i + 1), ⟨[], s.errs, s.cq⟩, [((i + 1 : ℕ) : ℤ)]) := by
        cases mode with
        | wait =>
          have hstep := submitBusyCheckAndWait_eq_nil maxGet
            ⟨s.sq ++ [pollAddOf getPollFlags ev], s.errs, s.cq⟩
            (by simpa using herrs)
          simp only [submitListAux, prepSqe, List.isEmpty_nil, if_true,
            hstep, hlen1]
        | dontWait =>
          have hstep := submitBusyCheck_eq_nil maxGet
            ⟨s.sq ++ [pollAddOf getPollFlags ev], s.errs, s.cq⟩
            (by simpa using herrs)
          simp only [submitListAux, prepSqe, List.isEmpty_nil, if_true,
            hstep, hlen1]
      have htot : ret + (i + 1) = ret + i + [ev].length := by
        simp only [List.length_singleton]
        omega
      rw [htot] at heval
      refine ⟨⟨[], s.errs, s.cq⟩, [((i + 1 : ℕ) : ℤ)], heval, ?_, ?_, ?_⟩
      · have hnum : i + [ev].length + maxSubmit - 1 = i + maxSubmit := by
          simp
        rw [hnum, List.length_singleton]
        rw [Nat.add_div_right _ (by omega), Nat.div_eq_of_lt hi]
      · intro c hc
        simp only [List.mem_singleton] at hc
        subst hc
        constructor
        · exact_mod_cast Nat.succ_le_succ (Nat.zero_le i)
        · exact_mod_cast hi
      · simp
    · have hneval : ¬rest.isEmpty = true := by
        simp [hrest]
      by_cases heq : i + 1 = maxSubmit
      · have hstep := submitBusyCheck_eq_nil maxGet
          ⟨s.sq ++ [pollAddOf getPollFlags ev], s.errs, s.cq⟩
          (by simpa using herrs)
        have heval : submitListAux getPollFlags maxSubmit maxGet mode
            (ev :: rest) i ret s =
            (submitListAux getPollFlags maxSubmit maxGet mode rest 0
              (ret + (i + 1)) ⟨[], s.errs, s.cq⟩).map
              (fun w => (w.1, w.2.1, ((i + 1 : ℕ) : ℤ) :: w.2.2)) := by
          simp only [submitListAux, prepSqe, hstep, hlen1]
          rw [if_neg hneval, if_pos heq]
          simp
        obtain ⟨sf, calls, h1, h2, h3, h4⟩ := ih 0 (ret + (i + 1))
          ⟨[], s.errs, s.cq⟩ hrest (by omega) herrs rfl
        refine ⟨sf, ((i + 1 : ℕ) : ℤ) :: calls, ?_, ?_, ?_, ?_⟩
        · rw [heval, h1]
          simp only [Option.map_some']
          have : ret + (i + 1) + 0 + rest.length =
              ret + i + (ev :: rest).length := by
            simp only [List.length_cons]
            omega
          rw [this]
        · rw [List.length_cons, h2]
          have hnum : i + (ev :: rest).length + maxSubmit - 1 =
              (0 + rest.length + maxSubmit - 1) + maxSubmit := by
            simp only [List.length_cons]
            omega
          rw [hnum, Nat.add_div_right _ (by omega)]
        · intro c hc
          rcases List.mem_cons.1 hc with hc1 | hc2
          · subst hc1
            constructor
            · exact_mod_cast Nat.succ_le_succ (Nat.zero_le i)
            · exact_mod_cast Nat.le_of_eq heq
          · exact h3 c hc2
        · rw [List.sum_cons, h4]
          push_cast
          simp only [List.length_cons]
          push_cast
          omega
      · have heval : submitListAux getPollFlags maxSubmit maxGet mode
            (ev :: rest) i ret s =
            submitListAux getPollFlags maxSubmit maxGet mode rest (i + 1)
              ret ⟨s.sq ++ [pollAddOf getPollFlags ev], s.errs, s.cq⟩ := by
          simp only [submitListAux, prepSqe]
          rw [if_neg hneval, if_neg heq]
        obtain ⟨sf, calls, h1, h2, h3, h4⟩ := ih (i + 1) ret
          ⟨s.sq ++ [pollAddOf getPollFlags ev], s.errs, s.cq⟩ hrest
          (by omega) herrs hlen1
        refine ⟨sf, calls, ?_, ?_, ?_, ?_⟩
        · rw [heval, h1]
          have : ret + (i + 1) + rest.length =
              ret + i + (ev :: rest).length := by
            simp only [List.length_cons]
            omega
          rw [this]
        · rw [h2]
          congr 1
          simp only [List.length_cons]
          omega
        · exact h3
        · rw [h4]
          congr 1
          simp only [List.length_cons]
          omega

/-- A dishonest submit answer aborts the batch: with the whole (non-empty)
queue fitting into the current batch and the kernel scheduled to answer the
one submit call with a non-busy value different from the batch size, the
`CHECK_EQ(num, i)` fails and the loop aborts. -/
lemma submitListAux_mismatch (getPollFlags : ℕ → ℕ) (maxSubmit maxGet : ℕ)
    (mode : WaitForEventsMode) (v : ℤ) (hvb : v ≠ -EBUSY) :
    ∀ (q : List EventData) (i ret : ℕ) (s : RingState),
      q ≠ [] → i + q.length ≤ maxSubmit → s.errs = [some v] →
      v ≠ ((i + q.length : ℕ) : ℤ) →
      submitListAux getPollFlags maxSubmit maxGet mode q i ret s = none := by
  intro q
  induction q with
  | nil =>
    intro i ret s hq
    exact absurd rfl hq
  | cons ev rest ih =>
    intro i ret s _ hle herrs hne
    by_cases hrest : rest = []
    · subst hrest
      simp only [List.length_singleton] at hne
      cases mode with
      | wait =>
        have hstep := submitBusyCheckAndWait_eq_single maxGet
          ⟨s.sq ++ [pollAddOf getPollFlags ev], s.errs, s.cq⟩ v
          (by simpa using herrs) hvb
        simp only [submitListAux, prepSqe, List.isEmpty_nil, if_true, hstep]
        rw [if_neg hne]
      | dontWait =>
        have hstep := submitBusyCheck_eq_single maxGet
          ⟨s.sq ++ [pollAddOf getPollFlags ev], s.errs, s.cq⟩ v
          (by simpa using herrs) hvb
        simp only [submitListAux, prepSqe, List.isEmpty_nil, if_true, hstep]
        rw [if_neg hne]
    · have hneval : ¬rest.isEmpty = true := by
        simp [hrest]
      have hrl : 1 ≤ rest.length := List.length_pos.2 hrest
      simp only [List.length_cons] at hle hne
      have hneq : ¬(i + 1 = maxSubmit) := by omega
      have heval : submitListAux getPollFlags maxSubmit maxGet mode
          (ev :: rest) i ret s =
          submitListAux getPollFlags maxSubmit maxGet mode rest (i + 1) ret
            ⟨s.sq ++ [pollAddOf getPollFlags ev], s.errs, s.cq⟩ := by
        simp only [submitListAux, prepSqe]
        rw [if_neg hneval, if_neg hneq]
      rw [heval]
      refine ih (i + 1) ret _ hrest (by omega) herrs ?_
      intro hv
      apply hne
      rw [hv]
      congr 1
      omega

/-- C1 (amended: the empty queue issues no submit call): with an honest
kernel, submitting a non-empty queue of N requests issues exactly
`ceil(N / maxSubmit)` submit calls, each reporting at least 1 and at most
maxSubmit, summing to N; for N ≤ maxSubmit that is one single call
reporting N; submitList returns N.  And a submit call answered with a
non-busy count different from the slots filled since the previous submit is
an unrecoverable internal-consistency fault: the run aborts. -/
theorem submitList_theorem :
    (∀ (getPollFlags : ℕ → ℕ) (maxSubmit maxGet : ℕ)
      (mode : WaitForEventsMode) (q : List EventData) (cq : List Cqe),
      1 ≤ maxSubmit → q ≠ [] →
      ∃ (sf : RingState) (calls : List ℤ),
        submitList getPollFlags maxSubmit maxGet mode q ⟨[], [], cq⟩ =
          some (q.length, sf, calls) ∧
        calls.length = (q.length + maxSubmit - 1) / maxSubmit ∧
        (∀ c ∈ calls, 1 ≤ c ∧ c ≤ (maxSubmit : ℤ)) ∧
        calls.sum = (q.length : ℤ) ∧
        (q.length ≤ maxSubmit → calls = [(q.length : ℤ)])) ∧
    (∀ (getPollFlags : ℕ → ℕ) (maxSubmit maxGet : ℕ)
      (mode : WaitForEventsMode) (q : List EventData) (cq : List Cqe)
      (v : ℤ),
      q ≠ [] → q.length ≤ maxSubmit → v ≠ -EBUSY →
      v ≠ (q.length : ℤ) →
      submitList getPollFlags maxSubmit maxGet mode q ⟨[], [some v], cq⟩ =
        none) := by
  constructor
  · intro getPollFlags maxSubmit maxGet mode q cq hms hq
    obtain ⟨sf, calls, h1, h2, h3, h4⟩ := submitListAux_honest getPollFlags
      maxSubmit maxGet mode hms q 0 0 ⟨[], [], cq⟩ hq (by omega) rfl rfl
    simp only [Nat.zero_add] at h1 h2 h4
    refine ⟨sf, calls, h1, h2, h3, h4, ?_⟩
    intro hle
    have hq1 : 1 ≤ q.length := List.length_pos.2 hq
    have hlen1 : calls.length = 1 := by
      rw [h2]
      have hnum : q.length + maxSubmit - 1 = (q.length - 1) + maxSubmit := by
        omega
      rw [hnum, Nat.add_div_right _ (by omega),
        Nat.div_eq_of_lt (by omega)]
    rcases calls with _ | ⟨c, cs⟩
    · simp at hlen1
    · have hcs : cs = [] := by
        simp only [List.length_cons] at hlen1
        exact List.length_eq_zero.1 (by omega)
      subst hcs
      simp only [List.sum_cons, List.sum_nil, add_zero] at h4
      rw [h4]
  · intro getPollFlags maxSubmit maxGet mode q cq v hq hle hvb hvn
    exact submitListAux_mismatch getPollFlags maxSubmit maxGet mode v hvb q
      0 0 ⟨[], [some v], cq⟩ hq (by omega) rfl (by simpa using hvn)

/-- Counterexample to C1 as stated: the empty queue (N = 0 ≤ maxSubmit = 2)
issues zero submit calls and returns 0, not the single submit call
reporting N that the claim requires for every N ≤ maxSubmit. -/
theorem submitList_empty_counterexample :
    submitList (fun n => n) 2 10 .dontWait [] ⟨[], [], []⟩ =
      some (0, ⟨[], [], []⟩, []) ∧ ([] : List ℤ).length ≠ 1 :=
  ⟨rfl, by decide⟩

/-- Witness for C1: five requests with maxSubmit = 2 succeed as three
submit calls reporting 2, 2 and 1. -/
theorem submitList_witness :
    (1 ≤ 2 ∧ ([⟨5, 16⟩, ⟨6, 0⟩, ⟨7, 3⟩, ⟨8, 1⟩, ⟨9, 2⟩] : List EventData)
      ≠ []) ∧
    (∃ (sf : RingState) (calls : List ℤ),
      submitList (fun n => n) 2 10 .dontWait
          [⟨5, 16⟩, ⟨6, 0⟩, ⟨7, 3⟩, ⟨8, 1⟩, ⟨9, 2⟩] ⟨[], [], []⟩ =
        some (5, sf, calls) ∧
      calls.length = (5 + 2 - 1) / 2 ∧
      (∀ c ∈ calls, 1 ≤ c ∧ c ≤ (2 : ℤ)) ∧
      calls.sum = (5 : ℤ) ∧
      (5 ≤ 2 → calls = [(5 : ℤ)])) := by
  refine ⟨⟨by decide, by decide⟩, ?_⟩
  exact submitList_theorem.1 (fun n => n) 2 10 .dontWait
    [⟨5, 16⟩, ⟨6, 0⟩, ⟨7, 3⟩, ⟨8, 1⟩, ⟨9, 2⟩] [] (by decide) (by decide)
